import Mathlib

/-!
Verification of the input-rules engine (`src/inputrules.ts`).

The development shallowly embeds the source file:
* strings are lists of characters (`Str`), with JavaScript's
  `String.prototype.slice` and `String.prototype.lastIndexOf` modelled
  faithfully, including negative-index wrap-around and the `-1` miss result;
* `stringHandler` is the string-replacement handler;
* `run` is the match runner, with the regular-expression engine abstracted
  as a `Rule.exec` function (the `RegExp` class is external to the repo)
  and documents abstracted at the interface the code uses;
* the plugin state transition and `undoInputRule` are embedded over a flat
  document model (`Doc`): a text block of characters carrying mark sets,
  with `ReplaceStep`-style steps supporting application and inversion.
-/

/-- JavaScript strings, modelled as lists of characters. -/
abbrev Str := List Char

/-- JavaScript `s.slice(a, b)`: negative indices count from the end,
both indices clamp to `[0, length]`, and an empty string results when the
normalized start is not below the normalized end. -/
def jsSlice (s : Str) (a b : Int) : Str :=
  let n : Int := s.length
  let lo : Int := if a < 0 then max (n + a) 0 else min a n
  let hi : Int := if b < 0 then max (n + b) 0 else min b n
  (s.take hi.toNat).drop lo.toNat

/-- JavaScript `s.slice(a)` (one-argument form, up to the end). -/
def jsSliceFrom (s : Str) (a : Int) : Str :=
  jsSlice s a s.length

/-- JavaScript `s.lastIndexOf(pat)`: the largest index at which `pat`
occurs in `s`, or `-1` when it does not occur. -/
def lastIndexOf (s pat : Str) : Int :=
  match ((List.range (s.length + 1)).filter (fun i => pat.isPrefixOf (s.drop i))).getLast? with
  | some i => (i : Int)
  | none => -1

/-- The replacement a string handler produces: `state.tr.insertText(insert, start, end)`
replaces the document range `[start, endPos)` with `insert`. -/
structure Replacement where
  insert : Str
  start : Int
  endPos : Int
  deriving DecidableEq, Repr

/-- `stringHandler` from the source: the handler used when an `InputRule`'s
handler is a string.  `m0` is `match[0]` (the full matched text) and `groups`
is the list of capture groups `match[1], match[2], ...`, each possibly
`undefined` (`none`).  JavaScript truthiness of `match[1]` means: present and
non-empty.  The returned triple describes `state.tr.insertText(insert, start, end)`. -/
def stringHandler (repl : Str) (m0 : Str) (groups : List (Option Str)) (start endP : Int) :
    Replacement :=
  let m1 : Str := (groups.headD none).getD []
  if m1.isEmpty then
    ⟨repl, start, endP⟩
  else
    let offset := lastIndexOf m0 m1
    let insert := repl ++ jsSliceFrom m0 (offset + m1.length)
    let start1 := start + offset
    let cutOff := start1 - endP
    if cutOff > 0 then
      ⟨jsSlice m0 (offset - cutOff) offset ++ insert, endP, endP⟩
    else
      ⟨insert, start1, endP⟩

/-- The substitution algorithm as the specification words it, parameterized by
the participating capture group `g?` (`none` when no capture group
participated): locate the group's last occurrence in the full match `m0`,
append the trailing suffix of the match to the replacement, shift `start` by
the group offset, and when the shifted start exceeds `endP` by `cutOff > 0`,
prepend the `cutOff` characters of `m0` immediately preceding the group and
reset `start` to `endP`. -/
def substitutionFormula (repl : Str) (m0 : Str) (g? : Option Str) (start endP : Int) :
    Replacement :=
  match g? with
  | none => ⟨repl, start, endP⟩
  | some g =>
    let groupOffset := lastIndexOf m0 g
    let suffix := jsSliceFrom m0 (groupOffset + g.length)
    let insertText := repl ++ suffix
    let start1 := start + groupOffset
    let cutOff := start1 - endP
    if cutOff > 0 then
      ⟨jsSlice m0 (groupOffset - cutOff) groupOffset ++ insertText, endP, endP⟩
    else
      ⟨insertText, start1, endP⟩

/-- The specification's choice of participating group: the first non-empty
capturing group of the match. -/
def firstNonEmptyGroup (groups : List (Option Str)) : Option Str :=
  (groups.find? (fun g? => !(g?.getD []).isEmpty)).bind id

/-- The source's choice of participating group: capture group 1 (`match[1]`),
and only when it is truthy (present and non-empty). -/
def groupOne (groups : List (Option Str)) : Option Str :=
  match groups.headD none with
  | some g => if g.isEmpty then none else some g
  | none => none

/-- C1 (counterexample): the claim's substitution formula, with `G` taken to
be the first non-empty capturing group of the match, disagrees with the code.
On a match `m0 = "ab"` with `match[1] = ""` (a participating but empty group 1)
and `match[2] = "a"`, the code takes the no-capture path and inserts just the
replacement, while the claim's formula anchors on group 2 and keeps the
trailing `"b"`. -/
theorem stringHandler_claim1_counterexample :
    stringHandler ['Z'] ['a', 'b'] [some [], some ['a']] 0 2 ≠
      substitutionFormula ['Z'] ['a', 'b']
        (firstNonEmptyGroup [some [], some ['a']]) 0 2 := by
  decide

/-- C1 (amended): for every replacement string, match, groups and start/end
pair, `stringHandler` computes exactly the claimed substitution — group-offset
anchoring at the last occurrence, suffix concatenation, start shift, and the
`cutOff` prepend-and-reset — with the participating capture group `G` being
capture group 1 (`match[1]`) when it is present and non-empty, the no-capture
path being taken otherwise (even when a later group is non-empty). -/
theorem stringHandler_matches_formula (repl m0 : Str) (groups : List (Option Str))
    (start endP : Int) :
    stringHandler repl m0 groups start endP =
      substitutionFormula repl m0 (groupOne groups) start endP := by
  unfold stringHandler substitutionFormula groupOne
  cases h : groups.headD none with
  | none => simp
  | some g =>
    by_cases hg : g.isEmpty
    · simp [hg]
    · simp [hg]

/-- C2: whenever a capture group participates (capture group 1 is truthy),
the replacement range produced by `stringHandler` satisfies `start ≤ endPos`,
for every start/end pair given to the handler. -/
theorem stringHandler_start_le_end (repl m0 : Str) (groups : List (Option Str))
    (start endP : Int) (h : groupOne groups ≠ none) :
    (stringHandler repl m0 groups start endP).start ≤
      (stringHandler repl m0 groups start endP).endPos := by
  unfold stringHandler
  have hne : ¬(((groups.headD none).getD []).isEmpty = true) := by
    intro hemp
    apply h
    unfold groupOne
    cases hh : groups.headD none with
    | none => rfl
    | some g =>
      rw [hh] at hemp
      simp only [Option.getD_some] at hemp
      simp [hemp]
  rw [if_neg hne]
  dsimp only
  split
  · exact le_refl _
  · rename_i hcut
    dsimp only
    omega

/-- C2 witness: a concrete capture-group match where the capture starts before
the insertion boundary (`start + offset > endP`), exercising the cut-off
branch. -/
theorem stringHandler_start_le_end_witness :
    groupOne [some ['a']] ≠ none ∧
      (stringHandler ['X'] ['a', 'b', 'a'] [some ['a']] 0 1).start ≤
        (stringHandler ['X'] ['a', 'b', 'a'] [some ['a']] 0 1).endPos :=
  ⟨by decide, stringHandler_start_le_end ['X'] ['a', 'b', 'a'] [some ['a']] 0 1 (by decide)⟩

/-- The window bound on the scanned text (`MAX_MATCH` in the source). -/
def MAX_MATCH : Nat := 500

/-- One position of the parent text block: a text character or a non-text
leaf node (which occupies one position and is rendered as a placeholder
by `textBetween`). -/
inductive BlockItem
  | ch (c : Char)
  | leaf
  deriving DecidableEq, Repr

/-- How `textBetween(..., null, "￼")` renders one block position:
characters stand for themselves; non-text leaves become U+FFFC. -/
def renderItem : BlockItem → Char
  | .ch c => c
  | .leaf => Char.ofNat 0xFFFC

/-- `parent.textBetween(a, b, null, "￼")`: the text of positions
`[a, b)` of the block, leaves rendered as the placeholder character. -/
def textBetween (block : List BlockItem) (a b : Nat) : Str :=
  ((block.take b).drop a).map renderItem

/-- The matching subject built by `run`:
`$from.parent.textBetween(Math.max(0, $from.parentOffset - MAX_MATCH), $from.parentOffset, null, "￼") + text`.
Natural-number subtraction saturates at zero, which is exactly `Math.max(0, ...)`. -/
def mkTextBefore (block : List BlockItem) (parentOffset : Nat) (text : Str) : Str :=
  textBetween block (parentOffset - MAX_MATCH) parentOffset ++ text

/-- The result of `RegExp.exec`: the full matched text `match[0]` and the
capture groups `match[1], ...`, each possibly `undefined`. -/
structure MatchData where
  m0 : Str
  groups : List (Option Str)
  deriving DecidableEq, Repr

/-- An input rule, with the regular-expression engine abstracted as the
`exec` function (`RegExp` is external to this repository) and the handler
abstracted over the editor-state type `St` and transaction type `Tr`. -/
structure InputRule (Tr St : Type) where
  exec : Str → Option MatchData
  handler : St → MatchData → Int → Int → Option Tr

/-- The metadata `run` attaches to the dispatched transaction:
`{transform: tr, from, to, text}` — the Revert Record. -/
structure InputRuleMeta (Tr : Type) where
  transform : Tr
  fromPos : Int
  toPos : Int
  text : Str
  deriving DecidableEq, Repr

/-- What a handled `run` dispatches: the index of the rule that fired
(the loop counter at dispatch), its transaction, and the attached metadata. -/
structure Dispatched (Tr : Type) where
  ruleIndex : Nat
  tr : Tr
  meta : InputRuleMeta Tr
  deriving DecidableEq, Repr

/-- One iteration of `run`'s loop body:
`let match = rules[i].match.exec(textBefore);`
`let tr = match && rules[i].handler(state, match, from - (match[0].length - text.length), to)`. -/
def attempt {Tr St : Type} (st : St) (textBefore : Str) (f t : Int) (text : Str)
    (r : InputRule Tr St) : Option Tr :=
  (r.exec textBefore).bind fun m =>
    r.handler st m (f - ((m.m0.length : Int) - (text.length : Int))) t

/-- The `for` loop of `run`: try each rule in order; on the first non-null
transaction, dispatch it with the Revert Record metadata and stop (`return true`);
`continue` otherwise; `none` models falling out of the loop (`return false`). -/
def runLoop {Tr St : Type} (st : St) (textBefore : Str) (f t : Int) (text : Str) :
    List (InputRule Tr St) → Nat → Option (Dispatched Tr)
  | [], _ => none
  | r :: rs, i =>
    match attempt st textBefore f t text r with
    | none => runLoop st textBefore f t text rs (i + 1)
    | some tr => some ⟨i, tr, ⟨tr, f, t, text⟩⟩

/-- `run` from the source.  `composing` is `view.composing`; `inCode` is
`$from.parent.type.spec.code`; `block`/`parentOffset` describe the parent
text block and the insertion point inside it; `f`, `t`, `text` are the
handler arguments.  `none` models `return false` with nothing dispatched;
`some d` models `view.dispatch(tr.setMeta(plugin, {...})); return true`. -/
def run {Tr St : Type} (composing inCode : Bool) (block : List BlockItem) (parentOffset : Nat)
    (st : St) (f t : Int) (text : Str) (rules : List (InputRule Tr St)) :
    Option (Dispatched Tr) :=
  if composing then none
  else if inCode then none
  else runLoop st (mkTextBefore block parentOffset text) f t text rules 0

/-- The first rule (by position) whose `attempt` yields a transaction,
together with that transaction. -/
def firstFire {Tr St : Type} (st : St) (textBefore : Str) (f t : Int) (text : Str) :
    List (InputRule Tr St) → Option (Nat × Tr)
  | [] => none
  | r :: rs =>
    match attempt st textBefore f t text r with
    | some tr => some (0, tr)
    | none => (firstFire st textBefore f t text rs).map fun p => (p.1 + 1, p.2)

lemma runLoop_eq_firstFire {Tr St : Type} (st : St) (tb : Str) (f t : Int) (text : Str)
    (rules : List (InputRule Tr St)) : ∀ i : Nat,
    runLoop st tb f t text rules i =
      (firstFire st tb f t text rules).map fun p => ⟨i + p.1, p.2, ⟨p.2, f, t, text⟩⟩ := by
  induction rules with
  | nil => intro i; rfl
  | cons r rs ih =>
    intro i
    simp only [runLoop, firstFire]
    cases h : attempt st tb f t text r with
    | some tr => simp
    | none =>
      rw [ih (i + 1)]
      cases hf : firstFire st tb f t text rs with
      | none => rfl
      | some p =>
        simp only [Option.map_some']
        congr 2
        omega

lemma firstFire_some {Tr St : Type} (st : St) (tb : Str) (f t : Int) (text : Str) :
    ∀ (rules : List (InputRule Tr St)) (j : Nat) (tr : Tr),
      firstFire st tb f t text rules = some (j, tr) →
        ∃ h : j < rules.length,
          attempt st tb f t text (rules.get ⟨j, h⟩) = some tr ∧
          ∀ (k : Nat) (hk : k < j),
            attempt st tb f t text (rules.get ⟨k, Nat.lt_trans hk h⟩) = none := by
  intro rules
  induction rules with
  | nil => intro j tr h; simp [firstFire] at h
  | cons r rs ih =>
    intro j tr hj
    simp only [firstFire] at hj
    cases h : attempt st tb f t text r with
    | some tr0 =>
      rw [h] at hj
      simp only [Option.some.injEq, Prod.mk.injEq] at hj
      obtain ⟨hj0, hjtr⟩ := hj
      subst hj0; subst hjtr
      exact ⟨Nat.succ_pos _, h, fun k hk => absurd hk (Nat.not_lt_zero k)⟩
    | none =>
      rw [h] at hj
      cases hf : firstFire st tb f t text rs with
      | none => rw [hf] at hj; simp at hj
      | some p =>
        rw [hf] at hj
        simp only [Option.map_some', Option.some.injEq, Prod.mk.injEq] at hj
        obtain ⟨hj1, hj2⟩ := hj
        obtain ⟨hp, hatt, hbefore⟩ := ih p.1 p.2 (by rw [hf])
        subst hj1; subst hj2
        refine ⟨Nat.succ_lt_succ hp, ?_, ?_⟩
        · simpa using hatt
        · intro k hk
          cases k with
          | zero => simpa using h
          | succ k' => simpa using hbefore k' (Nat.lt_of_succ_lt_succ hk)

lemma firstFire_none {Tr St : Type} (st : St) (tb : Str) (f t : Int) (text : Str) :
    ∀ (rules : List (InputRule Tr St)),
      firstFire st tb f t text rules = none →
        ∀ (j : Nat) (hj : j < rules.length),
          attempt st tb f t text (rules.get ⟨j, hj⟩) = none := by
  intro rules
  induction rules with
  | nil => intro _ j hj; exact absurd hj (Nat.not_lt_zero j)
  | cons r rs ih =>
    intro hnone j hj
    simp only [firstFire] at hnone
    cases h : attempt st tb f t text r with
    | some tr0 => rw [h] at hnone; simp at hnone
    | none =>
      rw [h] at hnone
      have hrs : firstFire st tb f t text rs = none := by
        cases hf : firstFire st tb f t text rs with
        | none => rfl
        | some p => rw [hf] at hnone; simp at hnone
      cases j with
      | zero => simpa using h
      | succ j' => simpa using ih hrs j' (Nat.lt_of_succ_lt_succ hj)

/-- C3: with the guards passing, `run` applies at most one rule (its result
carries at most one dispatched transaction), and it is the first rule in
registration order whose pattern matches the window and whose handler yields
a transaction: every earlier rule's attempt is `none`.  When `run` reports
not-handled, no rule's attempt yields a transaction, so in particular two
rules both firing on the same window resolve to the first one. -/
theorem run_first_match_wins {Tr St : Type} (block : List BlockItem) (off : Nat) (st : St)
    (f t : Int) (text : Str) (rules : List (InputRule Tr St)) :
    (∀ d : Dispatched Tr,
        run false false block off st f t text rules = some d →
          ∃ h : d.ruleIndex < rules.length,
            attempt st (mkTextBefore block off text) f t text
                (rules.get ⟨d.ruleIndex, h⟩) = some d.tr ∧
              ∀ (j : Nat) (hj : j < d.ruleIndex),
                attempt st (mkTextBefore block off text) f t text
                  (rules.get ⟨j, Nat.lt_trans hj h⟩) = none) ∧
      (run false false block off st f t text rules = none →
        ∀ (j : Nat) (hj : j < rules.length),
          attempt st (mkTextBefore block off text) f t text (rules.get ⟨j, hj⟩) = none) := by
  constructor
  · intro d hd
    have hrl : runLoop st (mkTextBefore block off text) f t text rules 0 = some d := hd
    rw [runLoop_eq_firstFire] at hrl
    cases hf : firstFire st (mkTextBefore block off text) f t text rules with
    | none => rw [hf] at hrl; simp at hrl
    | some p =>
      rw [hf] at hrl
      simp only [Option.map_some', Option.some.injEq] at hrl
      obtain ⟨hp, hatt, hbefore⟩ :=
        firstFire_some st (mkTextBefore block off text) f t text rules p.1 p.2 hf
      subst hrl
      simp only [Nat.zero_add]
      exact ⟨hp, hatt, hbefore⟩
  · intro hnone j hj
    have hrl : runLoop st (mkTextBefore block off text) f t text rules 0 = none := hnone
    rw [runLoop_eq_firstFire] at hrl
    exact firstFire_none st (mkTextBefore block off text) f t text rules
      (Option.map_eq_none'.mp hrl) j hj

/-- A rule that matches anything and fires, for concrete evaluation. -/
def wRuleFire : InputRule Nat Unit :=
  ⟨fun _ => some ⟨['-'], []⟩, fun _ _ _ _ => some 7⟩

/-- A second always-firing rule with a distinct transaction. -/
def wRuleFire2 : InputRule Nat Unit :=
  ⟨fun _ => some ⟨['-'], []⟩, fun _ _ _ _ => some 8⟩

/-- A rule whose pattern matches but whose handler declines (`null`). -/
def wRuleNull : InputRule Nat Unit :=
  ⟨fun _ => some ⟨['-'], []⟩, fun _ _ _ _ => none⟩

/-- C3 witness: two rules both fire on the window; `run` dispatches the first
one (index 0, transaction 7, not 8). -/
theorem run_first_match_wins_witness :
    ∃ h : 0 < [wRuleFire, wRuleFire2].length,
      attempt () (mkTextBefore [] 0 ['-']) 1 1 ['-']
          ([wRuleFire, wRuleFire2].get ⟨0, h⟩) = some 7 ∧
        ∀ (j : Nat) (hj : j < 0),
          attempt () (mkTextBefore [] 0 ['-']) 1 1 ['-']
            ([wRuleFire, wRuleFire2].get ⟨j, Nat.lt_trans hj h⟩) = none :=
  (run_first_match_wins [] 0 () 1 1 ['-'] [wRuleFire, wRuleFire2]).1
    ⟨0, 7, ⟨7, 1, 1, ['-']⟩⟩ (by decide)

/-- C4: a rule whose pattern matches the window but whose handler returns
`null` does not terminate the iteration: `run` on `r :: rest` behaves exactly
as `run` on `rest` (with the fired rule's loop index shifted by one), so later
rules still fire on the same input event. -/
theorem run_null_handler_fallthrough {Tr St : Type} (block : List BlockItem) (off : Nat)
    (st : St) (f t : Int) (text : Str) (r : InputRule Tr St)
    (rest : List (InputRule Tr St)) (m : MatchData)
    (hm : r.exec (mkTextBefore block off text) = some m)
    (hh : r.handler st m (f - ((m.m0.length : Int) - (text.length : Int))) t = none) :
    run false false block off st f t text (r :: rest) =
      (run false false block off st f t text rest).map
        fun d => ⟨d.ruleIndex + 1, d.tr, d.meta⟩ := by
  have hatt : attempt st (mkTextBefore block off text) f t text r = none := by
    unfold attempt
    rw [hm]
    simpa using hh
  show runLoop st (mkTextBefore block off text) f t text (r :: rest) 0 =
    (runLoop st (mkTextBefore block off text) f t text rest 0).map
      fun d => ⟨d.ruleIndex + 1, d.tr, d.meta⟩
  rw [runLoop_eq_firstFire, runLoop_eq_firstFire]
  simp only [firstFire, hatt]
  cases hf : firstFire st (mkTextBefore block off text) f t text rest with
  | none => rfl
  | some p => simp

/-- C4 witness: a null-returning rule in front does not block the second rule,
which fires with its index shifted past the declining rule. -/
theorem run_null_handler_fallthrough_witness :
    run false false [] 0 () 1 1 ['-'] [wRuleNull, wRuleFire] =
      (run false false [] 0 () 1 1 ['-'] [wRuleFire]).map
        (fun d => ⟨d.ruleIndex + 1, d.tr, d.meta⟩) :=
  run_null_handler_fallthrough [] 0 () 1 1 ['-'] wRuleNull [wRuleFire] ⟨['-'], []⟩
    rfl rfl

/-- C5: when the editor is composing, or the insertion point's parent block is
a code (verbatim) context, `run` returns not-handled (`none`) for every rule
list — in particular the result does not depend on the rules, so no rule's
pattern or handler is consulted. -/
theorem run_guards_short_circuit {Tr St : Type} (composing inCode : Bool)
    (block : List BlockItem) (off : Nat) (st : St) (f t : Int) (text : Str)
    (rules : List (InputRule Tr St)) (h : composing = true ∨ inCode = true) :
    run composing inCode block off st f t text rules = none := by
  unfold run
  rcases h with h | h
  · subst h; simp
  · subst h; cases composing <;> simp

/-- C5 witness: a composing view returns not-handled even with an
always-firing rule registered. -/
theorem run_guards_short_circuit_witness :
    run true false [] 0 () 1 1 ['-'] [wRuleFire] = none :=
  run_guards_short_circuit true false [] 0 () 1 1 ['-'] [wRuleFire] (Or.inl rfl)

/-- The last `n` elements of a list. -/
def lastN {α : Type} (n : Nat) (l : List α) : List α :=
  l.drop (l.length - n)

/-- C6: for a valid insertion point (`off ≤ block.length`), the matching
subject is exactly the last at-most-`MAX_MATCH` (500) positions of the block
preceding the insertion point, each rendered to plain text with non-text
leaves normalized to U+FFFC, concatenated with the inserted text; the window
part never exceeds 500 characters; and `run` (guards passing) executes the
rules against exactly this subject. -/
theorem run_match_window (block : List BlockItem) (off : Nat) (text : Str)
    (h : off ≤ block.length) :
    mkTextBefore block off text = (lastN MAX_MATCH (block.take off)).map renderItem ++ text ∧
      (lastN MAX_MATCH (block.take off)).length ≤ MAX_MATCH ∧
      ∀ (Tr St : Type) (st : St) (f t : Int) (rules : List (InputRule Tr St)),
        run false false block off st f t text rules =
          runLoop st (mkTextBefore block off text) f t text rules 0 := by
  refine ⟨?_, ?_, ?_⟩
  · have hl : (block.take off).length - MAX_MATCH = off - MAX_MATCH := by
      rw [List.length_take]
      omega
    unfold mkTextBefore textBetween lastN
    rw [hl]
  · unfold lastN
    rw [List.length_drop]
    omega
  · intro Tr St st f t rules
    rfl

/-- C6 witness: a block `a␄b` (with a non-text leaf in the middle), insertion
point after position 2, typing `c`. -/
theorem run_match_window_witness :
    (mkTextBefore [BlockItem.ch 'a', BlockItem.leaf, BlockItem.ch 'b'] 2 ['c'] =
        (lastN MAX_MATCH ([BlockItem.ch 'a', BlockItem.leaf, BlockItem.ch 'b'].take 2)).map
            renderItem ++ ['c'] ∧
      (lastN MAX_MATCH
          ([BlockItem.ch 'a', BlockItem.leaf, BlockItem.ch 'b'].take 2)).length ≤ MAX_MATCH ∧
      ∀ (Tr St : Type) (st : St) (f t : Int) (rules : List (InputRule Tr St)),
        run false false [BlockItem.ch 'a', BlockItem.leaf, BlockItem.ch 'b'] 2 st f t
            ['c'] rules =
          runLoop st
            (mkTextBefore [BlockItem.ch 'a', BlockItem.leaf, BlockItem.ch 'b'] 2 ['c'])
            f t ['c'] rules 0) :=
  run_match_window [BlockItem.ch 'a', BlockItem.leaf, BlockItem.ch 'b'] 2 ['c'] (by decide)

/-- Formatting marks, abstracted as identifiers. -/
abbrev Mark := Nat

/-- The flat document model used for the revert tracker: a text block whose
characters each carry a set of marks. -/
abbrev Doc := List (Char × List Mark)

/-- A `ReplaceStep`-style edit step: replace positions `[fromPos, toPos)`
with `slice`. -/
structure Step where
  fromPos : Nat
  toPos : Nat
  slice : Doc
  deriving DecidableEq, Repr

/-- Apply a replace step to a document. -/
def applyStep (d : Doc) (s : Step) : Doc :=
  d.take s.fromPos ++ s.slice ++ d.drop s.toPos

/-- `step.invert(doc)`: the inverse of a replace step, computed against the
document snapshot `d` the step was applied to — it restores the replaced
content over the span the slice occupies. -/
def invertStep (s : Step) (d : Doc) : Step :=
  ⟨s.fromPos, s.fromPos + s.slice.length, (d.take s.toPos).drop s.fromPos⟩

/-- A step addresses a real span of the document it is applied to. -/
def stepValidB (d : Doc) (s : Step) : Bool :=
  decide (s.fromPos ≤ s.toPos) && decide (s.toPos ≤ d.length)

/-- A `Transform` as `undoInputRule` consumes it: its `steps`, and `docs`
with `docs[j]` the document snapshot the `j`-th step was applied to. -/
structure Transform where
  steps : List Step
  docs : List Doc
  deriving DecidableEq, Repr

/-- Apply a list of steps in order. -/
def applySteps (d : Doc) (steps : List Step) : Doc :=
  steps.foldl applyStep d

/-- The recorded snapshots are consistent: starting from `d`, `docs[j]` is
the document before step `j`, and each step addresses a real span there. -/
def trValidB : Doc → List Step → List Doc → Bool
  | _, [], [] => true
  | d, s :: ss, e :: ds => decide (e = d) && stepValidB d s && trValidB (applyStep d s) ss ds
  | _, _, _ => false

/-- The inversion loop of `undoInputRule`:
`for (let j = toUndo.steps.length - 1; j >= 0; j--) tr.step(toUndo.steps[j].invert(toUndo.docs[j]))` —
the inverses are applied in strict reverse step order, each computed against
its recorded pre-edit snapshot. -/
def undoSteps : List Step → List Doc → Doc → Doc
  | [], _, d => d
  | _ :: _, [], d => d
  | s :: ss, d0 :: ds, d => applyStep (undoSteps ss ds d) (invertStep s d0)

/-- `tr.doc.resolve(p).marks()`: the marks at position `p` of the document
(interface model of the external document tree: the marks of the text
adjoining the position). -/
def marksAt (d : Doc) (p : Nat) : List Mark :=
  if p = 0 then ((d.head?).map Prod.snd).getD []
  else ((d[p - 1]?).map Prod.snd).getD []

/-- The transaction `undoInputRule` dispatches, as a document function:
invert the recorded transform's steps in reverse order against their
snapshots, then `tr.replaceWith(undoable.from, undoable.to,
state.schema.text(undoable.text, marks))` with the marks resolved at
`undoable.from` in the restored document. -/
def undoTr (doc1 : Doc) (r : InputRuleMeta Transform) : Doc :=
  let restored := undoSteps r.transform.steps r.transform.docs doc1
  let marks := marksAt restored r.fromPos.toNat
  restored.take r.fromPos.toNat ++ r.text.map (fun c => (c, marks)) ++
    restored.drop r.toPos.toNat

/-- The editor's default text-insertion outcome: replace `[f, t)` of the
document with the typed text, carrying the marks at the insertion position. -/
def insertTyped (d : Doc) (f t : Nat) (text : Str) : Doc :=
  d.take f ++ text.map (fun c => (c, marksAt d f)) ++ d.drop t

/-- A registered plugin as `undoInputRule` sees it: the
`plugin.spec.isInputRules` tag and `plugin.getState(state)`. -/
structure PluginInst where
  isInputRules : Bool
  state : Option (InputRuleMeta Transform)

/-- `undoInputRule` from the source: scan the plugins in order for an
input-rules plugin holding a non-null record; if found, return `true`
(dispatching the rebuilt transaction when a dispatch callback was supplied),
else `false`.  The second component is the document the dispatch produces,
`none` when nothing is dispatched. -/
def undoInputRule (doc : Doc) (dispatch : Bool) : List PluginInst → Bool × Option Doc
  | [] => (false, none)
  | p :: ps =>
    match p.isInputRules, p.state with
    | true, some r => (true, if dispatch then some (undoTr doc r) else none)
    | true, none => undoInputRule doc dispatch ps
    | false, _ => undoInputRule doc dispatch ps

/-- The plugin's `state.apply(tr, prev)` from the source:
`let stored = tr.getMeta(this); if (stored) return stored;`
`return tr.selectionSet || tr.docChanged ? null : prev`. -/
def applyPluginState {Tr : Type} (meta : Option (InputRuleMeta Tr))
    (selectionSet docChanged : Bool) (prev : Option (InputRuleMeta Tr)) :
    Option (InputRuleMeta Tr) :=
  match meta with
  | some stored => some stored
  | none => if selectionSet || docChanged then none else prev

/-- One `handleTextInput` event at the host boundary: when `run` dispatches,
the document advances by the transaction's steps and the plugin state is
updated with the attached metadata; when `run` reports not-handled, nothing
is dispatched. -/
def handleTextInputStep {St : Type} (doc : Doc) (prev : Option (InputRuleMeta Transform))
    (composing inCode : Bool) (block : List BlockItem) (off : Nat) (st : St)
    (f t : Int) (text : Str) (rules : List (InputRule Transform St)) :
    (Doc × Option (InputRuleMeta Transform)) × Bool :=
  match run composing inCode block off st f t text rules with
  | none => ((doc, prev), false)
  | some d => ((applySteps doc d.tr.steps, applyPluginState (some d.meta) true true prev), true)

lemma applyStep_invert (d : Doc) (s : Step) (h1 : s.fromPos ≤ s.toPos)
    (h2 : s.toPos ≤ d.length) :
    applyStep (applyStep d s) (invertStep s d) = d := by
  have hf : (d.take s.fromPos).length = s.fromPos := by
    rw [List.length_take]; omega
  have hTake : (d.take s.fromPos ++ s.slice ++ d.drop s.toPos).take s.fromPos =
      d.take s.fromPos := by
    rw [List.append_assoc]
    exact List.take_left' hf
  have hDrop : (d.take s.fromPos ++ s.slice ++ d.drop s.toPos).drop
      (s.fromPos + s.slice.length) = d.drop s.toPos :=
    List.drop_left' (by rw [List.length_append, hf])
  unfold applyStep invertStep
  dsimp only
  rw [hTake, hDrop]
  have h3 : d.take s.fromPos = (d.take s.toPos).take s.fromPos := by
    rw [List.take_take, min_eq_left h1]
  rw [h3, List.take_append_drop, List.take_append_drop]

lemma undoSteps_restore : ∀ (steps : List Step) (docs : List Doc) (d : Doc),
    trValidB d steps docs = true → undoSteps steps docs (applySteps d steps) = d := by
  intro steps
  induction steps with
  | nil =>
    intro docs d h
    cases docs with
    | nil => rfl
    | cons e ds => simp [trValidB] at h
  | cons s ss ih =>
    intro docs d h
    cases docs with
    | nil => simp [trValidB] at h
    | cons e ds =>
      simp only [trValidB, stepValidB, Bool.and_eq_true, decide_eq_true_eq] at h
      obtain ⟨⟨he, hv1, hv2⟩, hrest⟩ := h
      subst he
      show applyStep (undoSteps ss ds (applySteps (applyStep e s) ss)) (invertStep s e) = e
      rw [ih ds (applyStep e s) hrest]
      exact applyStep_invert e s hv1 hv2

/-- C7: the session state transition, covering every case: an update carrying
a Revert Record as plugin metadata makes the state that record (whatever the
selection/document flags and previous state); an update without the metadata
that set the selection or changed the document resets the state to `none` —
in particular any unrelated edit (`docChanged`, no metadata) after a rule
application clears the record; and an update with neither metadata nor
selection/document change carries the previous state over unchanged. -/
theorem applyPluginState_transition (Tr : Type) (r : InputRuleMeta Tr) (sel docC : Bool)
    (prev : Option (InputRuleMeta Tr)) :
    applyPluginState (some r) sel docC prev = some r ∧
      applyPluginState (none : Option (InputRuleMeta Tr)) true docC prev = none ∧
      applyPluginState (none : Option (InputRuleMeta Tr)) sel true prev = none ∧
      applyPluginState (none : Option (InputRuleMeta Tr)) false false prev = prev := by
  refine ⟨rfl, ?_, ?_, rfl⟩
  · simp [applyPluginState]
  · cases sel <;> simp [applyPluginState]

lemma undoInputRule_fst (doc : Doc) (dispatch : Bool) : ∀ plugins : List PluginInst,
    (undoInputRule doc dispatch plugins).1 =
      plugins.any fun p => p.isInputRules && p.state.isSome := by
  intro plugins
  induction plugins with
  | nil => rfl
  | cons p ps ih =>
    cases hb : p.isInputRules with
    | false => simp [undoInputRule, hb, ih]
    | true =>
      cases hs : p.state with
      | none => simp [undoInputRule, hb, hs, ih]
      | some r => simp [undoInputRule, hb, hs]

/-- C8: `undoInputRule` returns `true` exactly when some registered plugin is
an input-rules plugin holding a non-none Revert Record, and the returned
boolean is the same whether or not a dispatch callback is supplied; with no
active record it returns `false`. -/
theorem undoInputRule_returns_active (doc : Doc) (dispatch : Bool)
    (plugins : List PluginInst) :
    ((undoInputRule doc dispatch plugins).1 =
        plugins.any fun p => p.isInputRules && p.state.isSome) ∧
      (undoInputRule doc true plugins).1 = (undoInputRule doc false plugins).1 := by
  refine ⟨undoInputRule_fst doc dispatch plugins, ?_⟩
  rw [undoInputRule_fst, undoInputRule_fst]

/-- C9: reverting immediately after a rule-triggered change restores the
pre-rule document and re-inserts the originally typed text with the marks at
the insertion position: if the recorded transform's snapshots are consistent
with the pre-rule document `d0`, the transaction `undoInputRule` dispatches
(invert all steps in reverse order against their snapshots, then replace
`[from, to)` with the typed text) turns the post-rule document into exactly
the default insertion of the typed text into `d0` — apply-rule-then-revert
equals inserting the original text. -/
theorem undoInputRule_round_trip (d0 : Doc) (r : InputRuleMeta Transform)
    (hval : trValidB d0 r.transform.steps r.transform.docs = true) :
    undoTr (applySteps d0 r.transform.steps) r =
        insertTyped d0 r.fromPos.toNat r.toPos.toNat r.text ∧
      undoInputRule (applySteps d0 r.transform.steps) true [⟨true, some r⟩] =
        (true, some (insertTyped d0 r.fromPos.toNat r.toPos.toNat r.text)) := by
  have hres : undoSteps r.transform.steps r.transform.docs (applySteps d0 r.transform.steps)
      = d0 := undoSteps_restore _ _ _ hval
  have h1 : undoTr (applySteps d0 r.transform.steps) r =
      insertTyped d0 r.fromPos.toNat r.toPos.toNat r.text := by
    unfold undoTr insertTyped
    rw [hres]
  refine ⟨h1, ?_⟩
  show (true, some (undoTr (applySteps d0 r.transform.steps) r)) = _
  rw [h1]

/-- The pre-rule document for the concrete revert example: a block holding
a single dash. -/
def wDoc0 : Doc := [('-', [])]

/-- The rule-produced step for the example: replace `[0, 1)` with `X`
(the user typed the second dash of an `-- → X` style rule at position 1,
and the rule rewrote the matched span instead). -/
def wMeta : InputRuleMeta Transform :=
  ⟨⟨[⟨0, 1, [('X', [])]⟩], [wDoc0]⟩, 1, 1, ['-']⟩

/-- C9 witness: reverting the concrete rule application yields exactly the
default insertion of the typed dash into the pre-rule document. -/
theorem undoInputRule_round_trip_witness :
    trValidB wDoc0 wMeta.transform.steps wMeta.transform.docs = true ∧
      (undoTr (applySteps wDoc0 wMeta.transform.steps) wMeta =
          insertTyped wDoc0 wMeta.fromPos.toNat wMeta.toPos.toNat wMeta.text ∧
        undoInputRule (applySteps wDoc0 wMeta.transform.steps) true [⟨true, some wMeta⟩] =
          (true, some (insertTyped wDoc0 wMeta.fromPos.toNat wMeta.toPos.toNat wMeta.text))) :=
  ⟨by decide, undoInputRule_round_trip wDoc0 wMeta (by decide)⟩

/-- C10: whenever `run` reports not-handled (`none`) — a guard fired, no
pattern matched, or every matching rule's handler declined — the event
dispatches nothing: the document and the plugin's session state after the
event are exactly the ones before it. -/
theorem run_not_handled_atomic {St : Type} (doc : Doc)
    (prev : Option (InputRuleMeta Transform)) (composing inCode : Bool)
    (block : List BlockItem) (off : Nat) (st : St) (f t : Int) (text : Str)
    (rules : List (InputRule Transform St))
    (h : run composing inCode block off st f t text rules = none) :
    handleTextInputStep doc prev composing inCode block off st f t text rules =
      ((doc, prev), false) := by
  unfold handleTextInputStep
  rw [h]

/-- A rule over `Transform` transactions whose pattern never matches. -/
def wRuleNoMatch : InputRule Transform Unit :=
  ⟨fun _ => none, fun _ _ _ _ => none⟩

/-- C10 witness: an event where no rule's pattern matches leaves the document
and the session state untouched and reports not-handled. -/
theorem run_not_handled_atomic_witness :
    handleTextInputStep wDoc0 (some wMeta) false false [] 0 () 1 1 ['-'] [wRuleNoMatch] =
      ((wDoc0, some wMeta), false) :=
  run_not_handled_atomic wDoc0 (some wMeta) false false [] 0 () 1 1 ['-'] [wRuleNoMatch]
    (by decide)
